import Mathlib

/-!
Verification of the Deutsch-Jozsa simulation (src/src/main.py).

The source builds its circuits from three gates (PauliX, Hadamard, CNOT) and
delegates state-vector execution to an external simulator; per the design
document, the state is a dense vector of 2^(n+1) complex amplitudes and each
gate acts by the standard unitary rules.  All amplitudes reachable from the
basis initial state through these gates lie in the field Q(sqrt 2), so we
embed amplitudes exactly as pairs of rationals `a + b * sqrt 2`, with a
complex layer on top.  This keeps every definition computable and every
probability exact.
-/

/-- The field Q(sqrt 2): `re + rt * sqrt 2` with `re rt : ℚ`. -/
@[ext] structure Q2 where
  re : ℚ
  rt : ℚ
deriving DecidableEq

instance : Add Q2 := ⟨fun x y => ⟨x.re + y.re, x.rt + y.rt⟩⟩
instance : Mul Q2 := ⟨fun x y => ⟨x.re * y.re + 2 * x.rt * y.rt, x.re * y.rt + x.rt * y.re⟩⟩
instance : Neg Q2 := ⟨fun x => ⟨-x.re, -x.rt⟩⟩
instance : Sub Q2 := ⟨fun x y => ⟨x.re - y.re, x.rt - y.rt⟩⟩
instance : Zero Q2 := ⟨⟨0, 0⟩⟩
instance : One Q2 := ⟨⟨1, 0⟩⟩

instance : CommRing Q2 where
  add := (· + ·)
  zero := 0
  neg := Neg.neg
  sub := Sub.sub
  mul := (· * ·)
  one := 1
  nsmul := nsmulRec
  zsmul := zsmulRec
  add_assoc := fun ⟨a, b⟩ ⟨c, d⟩ ⟨e, f⟩ => Q2.ext
    (show a + c + e = a + (c + e) by ring) (show b + d + f = b + (d + f) by ring)
  zero_add := fun ⟨a, b⟩ => Q2.ext (show 0 + a = a by ring) (show 0 + b = b by ring)
  add_zero := fun ⟨a, b⟩ => Q2.ext (show a + 0 = a by ring) (show b + 0 = b by ring)
  add_comm := fun ⟨a, b⟩ ⟨c, d⟩ => Q2.ext
    (show a + c = c + a by ring) (show b + d = d + b by ring)
  mul_assoc := fun ⟨a, b⟩ ⟨c, d⟩ ⟨e, f⟩ => Q2.ext
    (show (a * c + 2 * b * d) * e + 2 * (a * d + b * c) * f
        = a * (c * e + 2 * d * f) + 2 * b * (c * f + d * e) by ring)
    (show (a * c + 2 * b * d) * f + (a * d + b * c) * e
        = a * (c * f + d * e) + b * (c * e + 2 * d * f) by ring)
  one_mul := fun ⟨a, b⟩ => Q2.ext
    (show 1 * a + 2 * 0 * b = a by ring) (show 1 * b + 0 * a = b by ring)
  mul_one := fun ⟨a, b⟩ => Q2.ext
    (show a * 1 + 2 * b * 0 = a by ring) (show a * 0 + b * 1 = b by ring)
  left_distrib := fun ⟨a, b⟩ ⟨c, d⟩ ⟨e, f⟩ => Q2.ext
    (show a * (c + e) + 2 * b * (d + f) = a * c + 2 * b * d + (a * e + 2 * b * f) by ring)
    (show a * (d + f) + b * (c + e) = a * d + b * c + (a * f + b * e) by ring)
  right_distrib := fun ⟨a, b⟩ ⟨c, d⟩ ⟨e, f⟩ => Q2.ext
    (show (a + c) * e + 2 * (b + d) * f = a * e + 2 * b * f + (c * e + 2 * d * f) by ring)
    (show (a + c) * f + (b + d) * e = a * f + b * e + (c * f + d * e) by ring)
  zero_mul := fun ⟨a, b⟩ => Q2.ext
    (show 0 * a + 2 * 0 * b = 0 by ring) (show 0 * b + 0 * a = 0 by ring)
  mul_zero := fun ⟨a, b⟩ => Q2.ext
    (show a * 0 + 2 * b * 0 = 0 by ring) (show a * 0 + b * 0 = 0 by ring)
  mul_comm := fun ⟨a, b⟩ ⟨c, d⟩ => Q2.ext
    (show a * c + 2 * b * d = c * a + 2 * d * b by ring)
    (show a * d + b * c = c * b + d * a by ring)
  sub_eq_add_neg := fun ⟨a, b⟩ ⟨c, d⟩ => Q2.ext
    (show a - c = a + -c by ring) (show b - d = b + -d by ring)
  neg_add_cancel := fun ⟨a, b⟩ => Q2.ext
    (show -a + a = 0 by ring) (show -b + b = 0 by ring)

/-- Complex numbers over `Q2`: the amplitude type of the simulated register
(the amplitude type of the engine supports complex values; every gate here has
real matrix entries). -/
@[ext] structure CQ2 where
  re : Q2
  im : Q2
deriving DecidableEq

instance : Add CQ2 := ⟨fun x y => ⟨x.re + y.re, x.im + y.im⟩⟩
instance : Sub CQ2 := ⟨fun x y => ⟨x.re - y.re, x.im - y.im⟩⟩
instance : Neg CQ2 := ⟨fun x => ⟨-x.re, -x.im⟩⟩
instance : Zero CQ2 := ⟨⟨0, 0⟩⟩
instance : One CQ2 := ⟨⟨1, 0⟩⟩
instance : SMul Q2 CQ2 := ⟨fun c x => ⟨c * x.re, c * x.im⟩⟩

/-- Squared magnitude of an amplitude. -/
def CQ2.normSq (x : CQ2) : Q2 := x.re * x.re + x.im * x.im

/-- The Hadamard normalization factor `1 / sqrt 2 = (sqrt 2) / 2`. -/
def invSqrt2 : Q2 := ⟨0, 1/2⟩

/-- A state of the register: amplitude at each basis index.  Bit `i` of the
index is the value of qubit (wire) `i`; only indices below `2^(qubit count)`
are meaningful. -/
def QState : Type := Nat → CQ2

/-- Modelled from the spec (Gate Application Engine, BitFlip): the source
applies `qml.PauliX(t)`; for every pair of basis indices differing only in
bit `t`, the amplitudes are swapped. -/
def applyX (t : Nat) (ψ : QState) : QState := fun k => ψ (k ^^^ 2 ^ t)

/-- Modelled from the spec (Gate Application Engine, Hadamard): the source
applies `qml.Hadamard(t)`; the pair `(a, b)` of amplitudes at bit `t` equal
to 0 and 1 becomes `((a+b)/sqrt 2, (a-b)/sqrt 2)`. -/
def applyH (t : Nat) (ψ : QState) : QState := fun k =>
  if k.testBit t then invSqrt2 • (ψ (k ^^^ 2 ^ t) - ψ k)
  else invSqrt2 • (ψ k + ψ (k ^^^ 2 ^ t))

/-- Modelled from the spec (Gate Application Engine, ControlledNot): the
source applies `qml.CNOT(wires=[c, t])`; where bit `c` is 1 the amplitude is
swapped with the bit-`t`-flipped index, where bit `c` is 0 it is untouched. -/
def applyCNOT (c t : Nat) (ψ : QState) : QState := fun k =>
  if k.testBit c then ψ (k ^^^ 2 ^ t) else ψ k

/-- Apply Hadamard to wires `0, 1, ..., m-1` in order
(`for i in range(m): qml.Hadamard(wires=i)` in the source). -/
def applyHUpTo : Nat → QState → QState
  | 0, ψ => ψ
  | m + 1, ψ => applyH m (applyHUpTo m ψ)

/-- Apply `CNOT(i, anc)` for `i = 0, ..., m-1` in order
(`for i in range(m): qml.CNOT(wires=[i, anc])` in the source). -/
def applyParityCNOTs (anc : Nat) : Nat → QState → QState
  | 0, ψ => ψ
  | m + 1, ψ => applyCNOT m anc (applyParityCNOTs anc m ψ)

/-- Oracle `constant_oracle_0` from the source: f(x) = 0, no operations. -/
def constant_oracle_0 (_n : Nat) (ψ : QState) : QState := ψ

/-- Oracle `constant_oracle_1` from the source: f(x) = 1, PauliX on the ancilla
wire `n`. -/
def constant_oracle_1 (n : Nat) (ψ : QState) : QState := applyX n ψ

/-- Oracle `balanced_oracle_parity` from the source: XOR of all input bits,
`CNOT(i, n)` for each input wire `i < n`. -/
def balanced_oracle_parity (n : Nat) (ψ : QState) : QState :=
  applyParityCNOTs n n ψ

/-- Oracle `balanced_oracle_first_half` from the source: a single `CNOT(0, n)`. -/
def balanced_oracle_first_half (n : Nat) (ψ : QState) : QState :=
  applyCNOT 0 n ψ

/-- The initial state of the register: amplitude 1 at basis index 0. -/
def initState : QState := fun k => if k = 0 then 1 else 0

/-- The Deutsch-Jozsa circuit of `deutsch_jozsa_circuit` /
`deutsch_jozsa_probability` in the source: PauliX on the ancilla wire `n`,
Hadamard on all `n+1` wires, the oracle, then Hadamard on the `n` input
wires.  Returns the final state. -/
def deutsch_jozsa_circuit (n : Nat) (oracle : Nat → QState → QState) : QState :=
  applyHUpTo n (oracle n (applyHUpTo (n + 1) (applyX n initState)))

/-- Exact analytic probability of measuring the input wires in the basis
pattern `x < 2^n`: the ancilla (bit `n`) is traced out. -/
def probInput (n : Nat) (ψ : QState) (x : Nat) : Q2 :=
  CQ2.normSq (ψ x) + CQ2.normSq (ψ (x + 2 ^ n))

/-- A real product state over qubits `0, ..., N-1`: the amplitude at index
`k` is the product of one factor per qubit, chosen by the bit of that qubit. -/
def prodStateR (g : Nat → Bool → Q2) (N : Nat) : Nat → Q2 :=
  fun k => ∏ i ∈ Finset.range N, g i (k.testBit i)

/-- Embed a real state into the complex amplitude type. -/
def ofReal (ψ : Nat → Q2) : QState := fun k => ⟨ψ k, 0⟩

/-- Qubit factor `|0⟩`. -/
def e0 : Bool → Q2 := fun b => if b then 0 else 1

/-- Qubit factor `|1⟩`. -/
def e1 : Bool → Q2 := fun b => if b then 1 else 0

/-- Qubit factor `|+⟩ = H|0⟩`. -/
def pPlus : Bool → Q2 := fun _ => invSqrt2

/-- Qubit factor `|-⟩ = H|1⟩`. -/
def pMinus : Bool → Q2 := fun b => if b then -invSqrt2 else invSqrt2

/-- Action of the Hadamard gate on one qubit factor. -/
def hFac (f : Bool → Q2) : Bool → Q2 :=
  fun b => (f false + (if b then -(f true) else f true)) * invSqrt2

/-- Action of the bit-flip gate on one qubit factor. -/
def xFac (f : Bool → Q2) : Bool → Q2 := fun b => f (!b)

/-- Action of a phase flip (Z) on one qubit factor: the phase kickback a
`CNOT` into a `|-⟩` ancilla leaves on its control qubit. -/
def zFac (f : Bool → Q2) : Bool → Q2 := fun b => if b then -(f true) else f false

/-- Two states agree on every basis index of an `N`-qubit register. -/
def agreeOn (N : Nat) (ψ φ : QState) : Prop := ∀ k, k < 2 ^ N → ψ k = φ k

/-- Qubit factors after stage 1 (ancilla wire `n` flipped to `|1⟩`). -/
def gInit (n : Nat) : Nat → Bool → Q2 := fun i => if i = n then e1 else e0

/-- Qubit factors after stage 2 (Hadamard on every wire). -/
def gSpread (n : Nat) : Nat → Bool → Q2 := fun i => if i = n then pMinus else pPlus

/-- Final qubit factors for the constant-0 oracle. -/
def gConst0 (n : Nat) : Nat → Bool → Q2 := fun i => if i = n then pMinus else e0

/-- Final qubit factors for the constant-1 oracle. -/
def gConst1 (n : Nat) : Nat → Bool → Q2 := fun i => if i = n then xFac pMinus else e0

/-- Final qubit factors for the balanced-parity oracle. -/
def gParity (n : Nat) : Nat → Bool → Q2 := fun i => if i = n then pMinus else e1

/-- Final qubit factors for the balanced-first-half oracle (`n ≥ 1`). -/
def gFirstHalf (n : Nat) : Nat → Bool → Q2 :=
  fun i => if i = n then pMinus else if i = 0 then e1 else e0

/-- A gate instruction, as in the design document: BitFlip, Hadamard, or
ControlledNot with explicit wire indices. -/
inductive Gate where
  | bitFlip (t : Nat)
  | hadamard (t : Nat)
  | cnot (c t : Nat)
deriving DecidableEq

/-- Apply one gate instruction to the state. -/
def applyGate : Gate → QState → QState
  | Gate.bitFlip t, ψ => applyX t ψ
  | Gate.hadamard t, ψ => applyH t ψ
  | Gate.cnot c t, ψ => applyCNOT c t ψ

/-- Apply a gate sequence in order. -/
def applyGates (gs : List Gate) (ψ : QState) : QState :=
  gs.foldl (fun φ g => applyGate g φ) ψ

/-- All wire indices of the gate lie in `[0, n]` (the `n` input wires plus
the ancilla wire `n`). -/
def Gate.inRange (n : Nat) : Gate → Bool
  | Gate.bitFlip t => t ≤ n
  | Gate.hadamard t => t ≤ n
  | Gate.cnot c t => c ≤ n && t ≤ n

/-- The gate denotes a genuine unitary on an `N`-qubit register: wires are
below `N`, and a ControlledNot has distinct control and target wires. -/
def Gate.unitaryOn (N : Nat) : Gate → Prop
  | Gate.bitFlip t => t < N
  | Gate.hadamard t => t < N
  | Gate.cnot c t => c < N ∧ t < N ∧ c ≠ t

/-- Sum of squared amplitude magnitudes over an `N`-qubit register. -/
def normSum (N : Nat) (ψ : QState) : Q2 :=
  ∑ k ∈ Finset.range (2 ^ N), CQ2.normSq (ψ k)

inductive CircuitError where
  | invalidGateTarget
deriving DecidableEq

inductive SampleError where
  | emptyShotCount
deriving DecidableEq

/-- Modelled from the spec (Circuit Runner, sections 4.4 and 7; the source
delegates execution to the external simulator): every wire index of every
oracle gate instruction is validated against `n` before the oracle stage
executes; any out-of-range index is a fatal `invalidGateTarget` error and no
state is produced. -/
def run_circuit (n : Nat) (oracleGates : List Gate) : Except CircuitError QState :=
  if oracleGates.all (Gate.inRange n) then
    Except.ok (applyHUpTo n (applyGates oracleGates (applyHUpTo (n + 1) (applyX n initState))))
  else Except.error CircuitError.invalidGateTarget

/-- One step of the counting loop of the source
(`counts[bitstring] = counts.get(bitstring, 0) + 1`): increment the count
of the key in an insertion-ordered association list. -/
def bump {α : Type} [DecidableEq α] (k : α) : List (α × Nat) → List (α × Nat)
  | [] => [(k, 1)]
  | (k', v) :: rest => if k = k' then (k', v + 1) :: rest else (k', v) :: bump k rest

/-- The counting loop of the source (`for bitstring in bitstrings: ...`),
run over a list of keys. -/
def countOcc {α : Type} [DecidableEq α] (l : List α) : List (α × Nat) :=
  l.foldl (fun acc k => bump k acc) []

/-- Total of the occurrence counts. -/
def sumCounts {α : Type} (c : List (α × Nat)) : Nat := (c.map Prod.snd).sum

/-- The dictionary comprehension of the source that divides each count by
the shot count. -/
def probabilities {α : Type} (c : List (α × Nat)) (shots : Nat) : List (α × ℚ) :=
  c.map (fun kv => (kv.1, (kv.2 : ℚ) / shots))

/-- The bitstring of shot `i` in the source: one character per wire,
`'0' if r[i] == 1 else '1'` over the per-wire result arrays
(character '0' is `false`). -/
def bitstringOf (results : List (List Int)) (i : Nat) : List Bool :=
  results.map (fun r => !(r.getD i 0 == 1))

/-- The `bitstrings` list of the source: one bitstring per shot,
`for i in range(shots)`. -/
def bitstrings (results : List (List Int)) (shots : Nat) : List (List Bool) :=
  (List.range shots).map (bitstringOf results)

/-- Walk a cumulative distribution: the first entry whose cumulative
probability exceeds `u`, with the last entry absorbing any residual
(the last comparison is clamped to always succeed). -/
def pickIdx : List ℚ → ℚ → Nat
  | [], _ => 0
  | [_], _ => 0
  | p :: q :: rest, u => if u < p then 0 else pickIdx (q :: rest) (u - p) + 1

/-- Modelled from the spec (Sampler, sections 4.5 and 7; the source
delegates shot sampling to the external simulator): a shot count of `0` is
rejected at the boundary as a fatal `emptyShotCount` error; otherwise each
of the `shots` draws `rng i` selects a basis index by an inverse-CDF walk
over the probability table, and the occurrence counts are returned. -/
def sample (table : List ℚ) (shots : Nat) (rng : Nat → ℚ) :
    Except SampleError (List (Nat × Nat)) :=
  if shots = 0 then Except.error SampleError.emptyShotCount
  else Except.ok (countOcc ((List.range shots).map (fun i => pickIdx table (rng i))))

/-- Classifier output. -/
inductive DJResult where
  | CONSTANT
  | BALANCED
deriving DecidableEq

/-- Python dictionary lookup with a default, as in
`probabilities.get(zero_state, 0.0)` in the source, on an association-list
distribution. -/
def getD {α : Type} [DecidableEq α] (d : List (α × ℚ)) (k : α) (dflt : ℚ) : ℚ :=
  match d.find? (fun kv => decide (kv.1 = k)) with
  | some kv => kv.2
  | none => dflt

/-- The all-zero bit pattern `'0' * n_qubits` of the source
(bit character '0' is `false`). -/
def zero_state (n : Nat) : List Bool := List.replicate n false

/-- The classifier of `test_deutsch_jozsa` in the source: CONSTANT when the
probability mass on the all-zero pattern strictly exceeds the threshold
(`zero_prob > 0.9` with threshold 0.9 in the source), else BALANCED; a
missing all-zero entry is read as probability 0. -/
def classify (d : List (List Bool × ℚ)) (n : Nat) (τ : ℚ) : DJResult :=
  if τ < getD d (zero_state n) 0 then DJResult.CONSTANT else DJResult.BALANCED

/-- Function `classical_algorithm` from the source: 2 queries for the
string "constant", else
`2 ** (n_qubits - 1) + 1` with Python integer/float arithmetic (an exact
rational, since Python computes `2 ** -1 = 0.5` when `n_qubits = 0`). -/
def classical_algorithm (function_type : String) (n_qubits : Nat) : ℚ :=
  if function_type = "constant" then 2
  else 2 ^ ((n_qubits : ℤ) - 1) + 1

/-! ### Component lemmas for the scalar types -/

@[simp] theorem Q2.add_re (x y : Q2) : (x + y).re = x.re + y.re := rfl

@[simp] theorem Q2.add_rt (x y : Q2) : (x + y).rt = x.rt + y.rt := rfl

@[simp] theorem Q2.mul_re (x y : Q2) : (x * y).re = x.re * y.re + 2 * x.rt * y.rt := rfl

@[simp] theorem Q2.mul_rt (x y : Q2) : (x * y).rt = x.re * y.rt + x.rt * y.re := rfl

@[simp] theorem Q2.neg_re (x : Q2) : (-x).re = -x.re := rfl

@[simp] theorem Q2.neg_rt (x : Q2) : (-x).rt = -x.rt := rfl

@[simp] theorem Q2.sub_re (x y : Q2) : (x - y).re = x.re - y.re := rfl

@[simp] theorem Q2.sub_rt (x y : Q2) : (x - y).rt = x.rt - y.rt := rfl

@[simp] theorem Q2.zero_re : (0 : Q2).re = 0 := rfl

@[simp] theorem Q2.zero_rt : (0 : Q2).rt = 0 := rfl

@[simp] theorem Q2.one_re : (1 : Q2).re = 1 := rfl

@[simp] theorem Q2.one_rt : (1 : Q2).rt = 0 := rfl

@[simp] theorem CQ2.re_add (x y : CQ2) : (x + y).re = x.re + y.re := rfl

@[simp] theorem CQ2.add_im (x y : CQ2) : (x + y).im = x.im + y.im := rfl

@[simp] theorem CQ2.re_sub (x y : CQ2) : (x - y).re = x.re - y.re := rfl

@[simp] theorem CQ2.sub_im (x y : CQ2) : (x - y).im = x.im - y.im := rfl

@[simp] theorem CQ2.re_neg (x : CQ2) : (-x).re = -x.re := rfl

@[simp] theorem CQ2.neg_im (x : CQ2) : (-x).im = -x.im := rfl

@[simp] theorem CQ2.smul_re (c : Q2) (x : CQ2) : (c • x).re = c * x.re := rfl

@[simp] theorem CQ2.smul_im (c : Q2) (x : CQ2) : (c • x).im = c * x.im := rfl

@[simp] theorem CQ2.re_zero : (0 : CQ2).re = 0 := rfl

@[simp] theorem CQ2.zero_im : (0 : CQ2).im = 0 := rfl

@[simp] theorem CQ2.re_one : (1 : CQ2).re = 1 := rfl

@[simp] theorem CQ2.one_im : (1 : CQ2).im = 0 := rfl

/-! ### Hadamard pair algebra -/

theorem smul_invSqrt2_pair_fst (a b : CQ2) :
    invSqrt2 • (invSqrt2 • (a + b) + invSqrt2 • (a - b)) = a := by
  refine CQ2.ext ?_ ?_ <;> refine Q2.ext ?_ ?_ <;>
    simp [invSqrt2] <;> ring

theorem smul_invSqrt2_pair_snd (a b : CQ2) :
    invSqrt2 • (invSqrt2 • (a + b) - invSqrt2 • (a - b)) = b := by
  refine CQ2.ext ?_ ?_ <;> refine Q2.ext ?_ ?_ <;>
    simp [invSqrt2] <;> ring

theorem testBit_xor_two_pow (k t : Nat) :
    (k ^^^ 2 ^ t).testBit t = !(k.testBit t) := by
  simp [Nat.testBit_xor, Nat.testBit_two_pow]

theorem testBit_xor_two_pow_ne (k t i : Nat) (h : i ≠ t) :
    (k ^^^ 2 ^ t).testBit i = k.testBit i := by
  simp [Nat.testBit_xor, Nat.testBit_two_pow, (Ne.symm h : t ≠ i)]

/-! ### Gates on product states -/

theorem prodStateR_congr (g g' : Nat → Bool → Q2) (N : Nat)
    (h : ∀ i, i < N → g i = g' i) : prodStateR g N = prodStateR g' N := by
  funext k
  exact Finset.prod_congr rfl fun i hi => by rw [h i (Finset.mem_range.mp hi)]

theorem applyX_prodStateR (t N : Nat) (g : Nat → Bool → Q2) :
    applyX t (ofReal (prodStateR g N)) =
      ofReal (prodStateR (fun i => if i = t then xFac (g i) else g i) N) := by
  funext k
  simp only [applyX, ofReal, prodStateR]
  congr 1
  refine Finset.prod_congr rfl fun i _ => ?_
  by_cases hit : i = t
  · subst hit
    rw [if_pos rfl, testBit_xor_two_pow]
    rfl
  · rw [if_neg hit, testBit_xor_two_pow_ne k t i hit]

theorem applyH_prodStateR (t N : Nat) (ht : t < N) (g : Nat → Bool → Q2) :
    applyH t (ofReal (prodStateR g N)) =
      ofReal (prodStateR (fun i => if i = t then hFac (g i) else g i) N) := by
  funext k
  have ht' : t ∈ Finset.range N := Finset.mem_range.mpr ht
  have hbits : ∀ x ∈ (Finset.range N).erase t,
      g x ((k ^^^ 2 ^ t).testBit x) = g x (k.testBit x) := fun x hx => by
    rw [testBit_xor_two_pow_ne k t x (Finset.ne_of_mem_erase hx)]
  have hP : prodStateR g N k
      = g t (k.testBit t) * ∏ x ∈ (Finset.range N).erase t, g x (k.testBit x) := by
    simp only [prodStateR]
    exact (Finset.mul_prod_erase _ _ ht').symm
  have hPm : prodStateR g N (k ^^^ 2 ^ t)
      = g t (!(k.testBit t)) * ∏ x ∈ (Finset.range N).erase t, g x (k.testBit x) := by
    simp only [prodStateR]
    rw [← Finset.mul_prod_erase _ _ ht', testBit_xor_two_pow]
    exact congrArg _ (Finset.prod_congr rfl hbits)
  have hQ : prodStateR (fun i => if i = t then hFac (g i) else g i) N k
      = hFac (g t) (k.testBit t) * ∏ x ∈ (Finset.range N).erase t, g x (k.testBit x) := by
    simp only [prodStateR]
    rw [← Finset.mul_prod_erase _ _ ht']
    rw [if_pos rfl]
    refine congrArg _ (Finset.prod_congr rfl fun x hx => ?_)
    rw [if_neg (Finset.ne_of_mem_erase hx)]
  simp only [applyH, ofReal]
  rw [hP, hPm, hQ]
  by_cases hb : k.testBit t
  · simp only [hb, ite_true]
    refine CQ2.ext ?_ ?_
    · simp [hFac]; ring
    · simp [hFac]
  · simp only [hb, ite_false, Bool.false_eq_true, Bool.not_false]
    refine CQ2.ext ?_ ?_
    · simp [hFac]; ring
    · simp [hFac]

theorem applyCNOT_prodStateR (c t N : Nat) (hc : c < N) (ht : t < N)
    (g : Nat → Bool → Q2) (hanc : g t true = -(g t false)) :
    applyCNOT c t (ofReal (prodStateR g N)) =
      ofReal (prodStateR (fun i => if i = c then zFac (g i) else g i) N) := by
  have hflip : ∀ b, g t (!b) = -(g t b) := by
    intro b
    cases b
    · simpa using hanc
    · simp [hanc]
  funext k
  have hc' : c ∈ Finset.range N := Finset.mem_range.mpr hc
  have ht' : t ∈ Finset.range N := Finset.mem_range.mpr ht
  have hQ : prodStateR (fun i => if i = c then zFac (g i) else g i) N k
      = zFac (g c) (k.testBit c) * ∏ x ∈ (Finset.range N).erase c, g x (k.testBit x) := by
    simp only [prodStateR]
    rw [← Finset.mul_prod_erase _ _ hc']
    rw [if_pos rfl]
    refine congrArg _ (Finset.prod_congr rfl fun x hx => ?_)
    rw [if_neg (Finset.ne_of_mem_erase hx)]
  have hP : prodStateR g N k
      = g c (k.testBit c) * ∏ x ∈ (Finset.range N).erase c, g x (k.testBit x) := by
    simp only [prodStateR]
    exact (Finset.mul_prod_erase _ _ hc').symm
  have hPm : prodStateR g N (k ^^^ 2 ^ t) = -(prodStateR g N k) := by
    simp only [prodStateR]
    rw [← Finset.mul_prod_erase _ _ ht', ← Finset.mul_prod_erase _ _ ht']
    rw [testBit_xor_two_pow, hflip, neg_mul]
    refine congrArg _ (congrArg _ (Finset.prod_congr rfl fun x hx => ?_))
    rw [testBit_xor_two_pow_ne k t x (Finset.ne_of_mem_erase hx)]
  simp only [applyCNOT, ofReal]
  by_cases hb : k.testBit c
  · simp only [hb, ite_true]
    rw [hPm, hP, hQ]
    simp only [zFac, hb, ite_true]
    refine CQ2.ext ?_ ?_ <;> simp
  · simp only [hb, ite_false, Bool.false_eq_true]
    rw [hP, hQ]
    simp only [zFac, hb, ite_false, Bool.false_eq_true]

theorem applyHUpTo_prodStateR (m N : Nat) (hm : m ≤ N) (g : Nat → Bool → Q2) :
    applyHUpTo m (ofReal (prodStateR g N)) =
      ofReal (prodStateR (fun i => if i < m then hFac (g i) else g i) N) := by
  induction m with
  | zero =>
      rw [applyHUpTo]
      exact congrArg ofReal
        (prodStateR_congr _ _ N fun i _ => (if_neg (Nat.not_lt_zero i)).symm)
  | succ m ih =>
      rw [applyHUpTo, ih (Nat.le_of_succ_le hm), applyH_prodStateR m N (Nat.lt_of_succ_le hm)]
      refine congrArg ofReal (prodStateR_congr _ _ N fun i _ => ?_)
      by_cases h1 : i = m
      · subst h1
        rw [if_pos rfl, if_neg (lt_irrefl i), if_pos (Nat.lt_succ_self i)]
      · rw [if_neg h1]
        by_cases h2 : i < m
        · rw [if_pos h2, if_pos (Nat.lt_succ_of_lt h2)]
        · rw [if_neg h2, if_neg (by omega : ¬ i < m + 1)]

theorem applyParityCNOTs_prodStateR (n m : Nat) (hm : m ≤ n) (g : Nat → Bool → Q2)
    (hanc : g n true = -(g n false)) :
    applyParityCNOTs n m (ofReal (prodStateR g (n + 1))) =
      ofReal (prodStateR (fun i => if i < m then zFac (g i) else g i) (n + 1)) := by
  induction m with
  | zero =>
      rw [applyParityCNOTs]
      exact congrArg ofReal
        (prodStateR_congr _ _ _ fun i _ => (if_neg (Nat.not_lt_zero i)).symm)
  | succ m ih =>
      rw [applyParityCNOTs, ih (Nat.le_of_succ_le hm)]
      have hnm : ¬ n < m := by omega
      have hanc' : (fun i => if i < m then zFac (g i) else g i) n true
          = -((fun i => if i < m then zFac (g i) else g i) n false) := by
        simp only [hnm, ite_false]
        exact hanc
      rw [applyCNOT_prodStateR m n (n + 1) (by omega) (by omega) _ hanc']
      refine congrArg ofReal (prodStateR_congr _ _ _ fun i _ => ?_)
      by_cases h1 : i = m
      · subst h1
        rw [if_pos rfl, if_neg (lt_irrefl i), if_pos (Nat.lt_succ_self i)]
      · rw [if_neg h1]
        by_cases h2 : i < m
        · rw [if_pos h2, if_pos (Nat.lt_succ_of_lt h2)]
        · rw [if_neg h2, if_neg (by omega : ¬ i < m + 1)]

/-! ### Factor computations -/

theorem hFac_e0 : hFac e0 = pPlus := by
  funext b
  cases b <;> refine Q2.ext ?_ ?_ <;> norm_num [hFac, e0, pPlus, invSqrt2]

theorem hFac_e1 : hFac e1 = pMinus := by
  funext b
  cases b <;> refine Q2.ext ?_ ?_ <;> norm_num [hFac, e1, pMinus, invSqrt2]

theorem hFac_pPlus : hFac pPlus = e0 := by
  funext b
  cases b <;> refine Q2.ext ?_ ?_ <;> norm_num [hFac, e0, pPlus, invSqrt2]

theorem hFac_pMinus : hFac pMinus = e1 := by
  funext b
  cases b <;> refine Q2.ext ?_ ?_ <;> norm_num [hFac, e1, pMinus, invSqrt2]

theorem zFac_pPlus : zFac pPlus = pMinus := by
  funext b
  cases b <;> rfl

theorem pMinus_kick : pMinus true = -(pMinus false) := rfl

/-! ### Agreement on the index range of the register -/

theorem agreeOn_applyX (t N : Nat) (ht : t < N) (ψ φ : QState) (h : agreeOn N ψ φ) :
    agreeOn N (applyX t ψ) (applyX t φ) := by
  intro k hk
  have hx : k ^^^ 2 ^ t < 2 ^ N :=
    Nat.xor_lt_two_pow hk (Nat.pow_lt_pow_right (by norm_num) ht)
  simp only [applyX]
  exact h _ hx

theorem agreeOn_applyH (t N : Nat) (ht : t < N) (ψ φ : QState) (h : agreeOn N ψ φ) :
    agreeOn N (applyH t ψ) (applyH t φ) := by
  intro k hk
  have hx : k ^^^ 2 ^ t < 2 ^ N :=
    Nat.xor_lt_two_pow hk (Nat.pow_lt_pow_right (by norm_num) ht)
  simp only [applyH, h k hk, h _ hx]

theorem agreeOn_applyCNOT (c t N : Nat) (_hc : c < N) (ht : t < N) (ψ φ : QState)
    (h : agreeOn N ψ φ) : agreeOn N (applyCNOT c t ψ) (applyCNOT c t φ) := by
  intro k hk
  have hx : k ^^^ 2 ^ t < 2 ^ N :=
    Nat.xor_lt_two_pow hk (Nat.pow_lt_pow_right (by norm_num) ht)
  simp only [applyCNOT, h k hk, h _ hx]

theorem agreeOn_applyHUpTo (m N : Nat) (hm : m ≤ N) (ψ φ : QState) (h : agreeOn N ψ φ) :
    agreeOn N (applyHUpTo m ψ) (applyHUpTo m φ) := by
  induction m with
  | zero => exact h
  | succ m ih =>
      rw [applyHUpTo, applyHUpTo]
      exact agreeOn_applyH m N (Nat.lt_of_succ_le hm) _ _ (ih (Nat.le_of_succ_le hm))

theorem agreeOn_applyParityCNOTs (n m : Nat) (hm : m ≤ n) (ψ φ : QState)
    (h : agreeOn (n + 1) ψ φ) :
    agreeOn (n + 1) (applyParityCNOTs n m ψ) (applyParityCNOTs n m φ) := by
  induction m with
  | zero => exact h
  | succ m ih =>
      rw [applyParityCNOTs, applyParityCNOTs]
      exact agreeOn_applyCNOT m n (n + 1) (by omega) (by omega) _ _
        (ih (Nat.le_of_succ_le hm))

theorem agreeOn_of_eq (N : Nat) (ψ φ φ' : QState) (h : agreeOn N ψ φ) (he : φ = φ') :
    agreeOn N ψ φ' := he ▸ h

/-! ### The circuit stages on product states -/

theorem initX_agree (n : Nat) :
    agreeOn (n + 1) (applyX n initState) (ofReal (prodStateR (gInit n) (n + 1))) := by
  intro k hk
  simp only [applyX, initState, ofReal, prodStateR]
  by_cases hkn : k = 2 ^ n
  · subst hkn
    rw [if_pos (Nat.xor_self _)]
    have hprod : ∏ i ∈ Finset.range (n + 1), gInit n i ((2 ^ n).testBit i) = 1 := by
      refine Finset.prod_eq_one fun i hi => ?_
      by_cases hin : i = n
      · subst hin
        rw [Nat.testBit_two_pow_self]
        simp [gInit, e1]
      · rw [Nat.testBit_two_pow, decide_eq_false (Ne.symm hin)]
        simp [gInit, hin, e0]
    rw [hprod]
    rfl
  · rw [if_neg (fun h => hkn (Nat.xor_eq_zero.mp h))]
    have hzero : ∏ i ∈ Finset.range (n + 1), gInit n i (k.testBit i) = 0 := by
      by_cases hn : k.testBit n
      · have hex : ∃ i, i < n ∧ k.testBit i = true := by
          by_contra hall
          push_neg at hall
          apply hkn
          apply Nat.eq_of_testBit_eq
          intro j
          rw [Nat.testBit_two_pow]
          rcases Nat.lt_trichotomy j n with hj | hj | hj
          · rw [decide_eq_false (by omega : ¬ n = j)]
            simpa using hall j hj
          · subst hj
            rw [hn]
            simp
          · rw [decide_eq_false (by omega : ¬ n = j)]
            exact Nat.testBit_eq_false_of_lt
              (lt_of_lt_of_le hk (Nat.pow_le_pow_right (by norm_num) (by omega)))
        obtain ⟨i, hin, hbit⟩ := hex
        have hine : i ≠ n := by omega
        refine Finset.prod_eq_zero (Finset.mem_range.mpr (show i < n + 1 by omega)) ?_
        rw [hbit]
        simp [gInit, hine, e0]
      · refine Finset.prod_eq_zero (Finset.mem_range.mpr (Nat.lt_succ_self n)) ?_
        have hfalse : k.testBit n = false := by simpa using hn
        rw [hfalse]
        simp [gInit, e1]
    rw [hzero]
    rfl

theorem dj_prefix_agree (n : Nat) :
    agreeOn (n + 1) (applyHUpTo (n + 1) (applyX n initState))
      (ofReal (prodStateR (gSpread n) (n + 1))) := by
  have h1 := agreeOn_applyHUpTo (n + 1) (n + 1) (le_refl _) _ _ (initX_agree n)
  refine agreeOn_of_eq _ _ _ _ h1 ?_
  refine (applyHUpTo_prodStateR (n + 1) (n + 1) (le_refl _) (gInit n)).trans
    (congrArg ofReal (prodStateR_congr _ _ _ fun i hi => ?_))
  by_cases hin : i = n <;> simp [gInit, gSpread, hin, hi, hFac_e1, hFac_e0]

theorem dj_const0_agree (n : Nat) :
    agreeOn (n + 1) (deutsch_jozsa_circuit n constant_oracle_0)
      (ofReal (prodStateR (gConst0 n) (n + 1))) := by
  rw [deutsch_jozsa_circuit]
  simp only [constant_oracle_0]
  have h2 := agreeOn_applyHUpTo n (n + 1) (Nat.le_succ n) _ _ (dj_prefix_agree n)
  refine agreeOn_of_eq _ _ _ _ h2 ?_
  refine (applyHUpTo_prodStateR n (n + 1) (Nat.le_succ n) (gSpread n)).trans
    (congrArg ofReal (prodStateR_congr _ _ _ fun i hi => ?_))
  by_cases hin : i = n
  · simp [gSpread, gConst0, hin]
  · have hilt : i < n := by omega
    simp [gSpread, gConst0, hin, hilt, hFac_pPlus]

theorem dj_const1_agree (n : Nat) :
    agreeOn (n + 1) (deutsch_jozsa_circuit n constant_oracle_1)
      (ofReal (prodStateR (gConst1 n) (n + 1))) := by
  rw [deutsch_jozsa_circuit]
  simp only [constant_oracle_1]
  have h2 := agreeOn_applyX n (n + 1) (Nat.lt_succ_self n) _ _ (dj_prefix_agree n)
  have e2 : applyX n (ofReal (prodStateR (gSpread n) (n + 1)))
      = ofReal (prodStateR (fun i => if i = n then xFac pMinus else pPlus) (n + 1)) := by
    refine (applyX_prodStateR n (n + 1) (gSpread n)).trans
      (congrArg ofReal (prodStateR_congr _ _ _ fun i _ => ?_))
    by_cases hin : i = n <;> simp [gSpread, hin]
  have h3 := agreeOn_applyHUpTo n (n + 1) (Nat.le_succ n) _ _
    (agreeOn_of_eq _ _ _ _ h2 e2)
  refine agreeOn_of_eq _ _ _ _ h3 ?_
  refine (applyHUpTo_prodStateR n (n + 1) (Nat.le_succ n) _).trans
    (congrArg ofReal (prodStateR_congr _ _ _ fun i hi => ?_))
  by_cases hin : i = n
  · simp [gConst1, hin]
  · have hilt : i < n := by omega
    simp [gConst1, hin, hilt, hFac_pPlus]

theorem dj_parity_agree (n : Nat) :
    agreeOn (n + 1) (deutsch_jozsa_circuit n balanced_oracle_parity)
      (ofReal (prodStateR (gParity n) (n + 1))) := by
  rw [deutsch_jozsa_circuit]
  simp only [balanced_oracle_parity]
  have h2 := agreeOn_applyParityCNOTs n n (le_refl n) _ _ (dj_prefix_agree n)
  have hanc : gSpread n n true = -(gSpread n n false) := by
    simp only [gSpread, if_pos rfl]
    exact pMinus_kick
  have e2 : applyParityCNOTs n n (ofReal (prodStateR (gSpread n) (n + 1)))
      = ofReal (prodStateR (fun _ => pMinus) (n + 1)) := by
    refine (applyParityCNOTs_prodStateR n n (le_refl n) (gSpread n) hanc).trans
      (congrArg ofReal (prodStateR_congr _ _ _ fun i hi => ?_))
    by_cases hin : i < n
    · have hine : i ≠ n := by omega
      simp [gSpread, hin, hine, zFac_pPlus]
    · have hieq : i = n := by omega
      simp [gSpread, hin, hieq]
  have h3 := agreeOn_applyHUpTo n (n + 1) (Nat.le_succ n) _ _
    (agreeOn_of_eq _ _ _ _ h2 e2)
  refine agreeOn_of_eq _ _ _ _ h3 ?_
  refine (applyHUpTo_prodStateR n (n + 1) (Nat.le_succ n) _).trans
    (congrArg ofReal (prodStateR_congr _ _ _ fun i hi => ?_))
  by_cases hin : i = n
  · simp [gParity, hin]
  · have hilt : i < n := by omega
    simp [gParity, hin, hilt, hFac_pMinus]

theorem dj_firstHalf_agree (n : Nat) (hn : 1 ≤ n) :
    agreeOn (n + 1) (deutsch_jozsa_circuit n balanced_oracle_first_half)
      (ofReal (prodStateR (gFirstHalf n) (n + 1))) := by
  rw [deutsch_jozsa_circuit]
  simp only [balanced_oracle_first_half]
  have h2 := agreeOn_applyCNOT 0 n (n + 1) (by omega) (by omega) _ _ (dj_prefix_agree n)
  have hanc : gSpread n n true = -(gSpread n n false) := by
    simp only [gSpread, if_pos rfl]
    exact pMinus_kick
  have e2 : applyCNOT 0 n (ofReal (prodStateR (gSpread n) (n + 1)))
      = ofReal (prodStateR (fun i => if i = 0 then pMinus else gSpread n i) (n + 1)) := by
    refine (applyCNOT_prodStateR 0 n (n + 1) (by omega) (by omega) (gSpread n) hanc).trans
      (congrArg ofReal (prodStateR_congr _ _ _ fun i _ => ?_))
    by_cases hi0 : i = 0
    · have h0n : ¬ (0 : ℕ) = n := by omega
      simp [gSpread, hi0, h0n, zFac_pPlus]
    · simp [hi0]
  have h3 := agreeOn_applyHUpTo n (n + 1) (Nat.le_succ n) _ _
    (agreeOn_of_eq _ _ _ _ h2 e2)
  refine agreeOn_of_eq _ _ _ _ h3 ?_
  refine (applyHUpTo_prodStateR n (n + 1) (Nat.le_succ n) _).trans
    (congrArg ofReal (prodStateR_congr _ _ _ fun i hi => ?_))
  by_cases hin : i = n
  · have hnn : ¬ n < n := by omega
    have hn0 : ¬ n = 0 := by omega
    simp [gFirstHalf, gSpread, hin, hnn, hn0]
  · have hilt : i < n := by omega
    by_cases hi0 : i = 0
    · have h0n : ¬ (0 : ℕ) = n := by omega
      have h0lt : 0 < n := by omega
      simp [gFirstHalf, hin, hilt, hi0, h0n, h0lt, hFac_pMinus]
    · simp [gFirstHalf, gSpread, hin, hilt, hi0, hFac_pPlus]

/-! ### Exact probabilities (C1, C5) -/

theorem probInput_agree (n : Nat) (ψ φ : QState) (h : agreeOn (n + 1) ψ φ) (x : Nat)
    (hx : x < 2 ^ n) : probInput n ψ x = probInput n φ x := by
  have h1 : x < 2 ^ (n + 1) := lt_trans hx (Nat.pow_lt_pow_succ (by norm_num))
  have h2 : x + 2 ^ n < 2 ^ (n + 1) := by
    have hp : 2 ^ (n + 1) = 2 ^ n + 2 ^ n := by ring
    omega
  rw [probInput, probInput, h x h1, h _ h2]

theorem probInput_ofReal (n : Nat) (v : Nat → Q2) (x : Nat) :
    probInput n (ofReal v) x
      = v x * v x + v (x + 2 ^ n) * v (x + 2 ^ n) := by
  simp [probInput, ofReal, CQ2.normSq]

theorem prodStateR_eval_zero (g : Nat → Bool → Q2) (n : Nat) :
    prodStateR g (n + 1) 0 = (∏ i ∈ Finset.range n, g i false) * g n false := by
  simp only [prodStateR, Nat.zero_testBit, Finset.prod_range_succ]

theorem prodStateR_eval_two_pow (g : Nat → Bool → Q2) (n : Nat) :
    prodStateR g (n + 1) (2 ^ n) = (∏ i ∈ Finset.range n, g i false) * g n true := by
  simp only [prodStateR, Finset.prod_range_succ, Nat.testBit_two_pow_self]
  congr 1
  refine Finset.prod_congr rfl fun i hi => ?_
  rw [Nat.testBit_two_pow,
    decide_eq_false (show ¬ n = i by have := Finset.mem_range.mp hi; omega)]

theorem probInput_const0 (n : Nat) :
    probInput n (deutsch_jozsa_circuit n constant_oracle_0) 0 = 1 := by
  rw [probInput_agree n _ _ (dj_const0_agree n) 0 (Nat.two_pow_pos n), probInput_ofReal,
    zero_add, prodStateR_eval_zero, prodStateR_eval_two_pow]
  have hone : ∀ i ∈ Finset.range n, gConst0 n i false = 1 := fun i hi => by
    have hine : i ≠ n := by have := Finset.mem_range.mp hi; omega
    simp [gConst0, hine, e0]
  rw [Finset.prod_congr rfl hone, Finset.prod_const_one, one_mul, one_mul]
  have h0 : gConst0 n n false = invSqrt2 := by simp [gConst0, pMinus]
  have h1 : gConst0 n n true = -invSqrt2 := by simp [gConst0, pMinus]
  rw [h0, h1]
  refine Q2.ext ?_ ?_ <;> norm_num [invSqrt2]

theorem probInput_const1 (n : Nat) :
    probInput n (deutsch_jozsa_circuit n constant_oracle_1) 0 = 1 := by
  rw [probInput_agree n _ _ (dj_const1_agree n) 0 (Nat.two_pow_pos n), probInput_ofReal,
    zero_add, prodStateR_eval_zero, prodStateR_eval_two_pow]
  have hone : ∀ i ∈ Finset.range n, gConst1 n i false = 1 := fun i hi => by
    have hine : i ≠ n := by have := Finset.mem_range.mp hi; omega
    simp [gConst1, hine, e0]
  rw [Finset.prod_congr rfl hone, Finset.prod_const_one, one_mul, one_mul]
  have h0 : gConst1 n n false = -invSqrt2 := by simp [gConst1, xFac, pMinus]
  have h1 : gConst1 n n true = invSqrt2 := by simp [gConst1, xFac, pMinus]
  rw [h0, h1]
  refine Q2.ext ?_ ?_ <;> norm_num [invSqrt2]

theorem probInput_parity (n : Nat) (hn : 1 ≤ n) :
    probInput n (deutsch_jozsa_circuit n balanced_oracle_parity) 0 = 0 := by
  rw [probInput_agree n _ _ (dj_parity_agree n) 0 (Nat.two_pow_pos n), probInput_ofReal,
    zero_add, prodStateR_eval_zero, prodStateR_eval_two_pow]
  have hzero : (∏ i ∈ Finset.range n, gParity n i false) = 0 := by
    have h0n : (0 : ℕ) ≠ n := by omega
    refine Finset.prod_eq_zero (Finset.mem_range.mpr (show 0 < n by omega)) ?_
    simp [gParity, h0n, e1]
  rw [hzero, zero_mul, zero_mul]
  simp

theorem probInput_firstHalf (n : Nat) (hn : 1 ≤ n) :
    probInput n (deutsch_jozsa_circuit n balanced_oracle_first_half) 0 = 0 := by
  rw [probInput_agree n _ _ (dj_firstHalf_agree n hn) 0 (Nat.two_pow_pos n), probInput_ofReal,
    zero_add, prodStateR_eval_zero, prodStateR_eval_two_pow]
  have hzero : (∏ i ∈ Finset.range n, gFirstHalf n i false) = 0 := by
    have h0n : ¬ (0 : ℕ) = n := by omega
    refine Finset.prod_eq_zero (Finset.mem_range.mpr (show 0 < n by omega)) ?_
    simp [gFirstHalf, h0n, e1]
  rw [hzero, zero_mul, zero_mul]
  simp

/-- C1: for every `n ≥ 1` and each of the four registered oracles, the exact
analytic probability of the all-zero input pattern after the Deutsch-Jozsa
circuit is 1 for the two constant oracles and 0 for the two balanced
oracles. -/
theorem deutsch_jozsa_probability_correct (n : Nat) (h : 1 ≤ n) :
    probInput n (deutsch_jozsa_circuit n constant_oracle_0) 0 = 1 ∧
    probInput n (deutsch_jozsa_circuit n constant_oracle_1) 0 = 1 ∧
    probInput n (deutsch_jozsa_circuit n balanced_oracle_parity) 0 = 0 ∧
    probInput n (deutsch_jozsa_circuit n balanced_oracle_first_half) 0 = 0 :=
  ⟨probInput_const0 n, probInput_const1 n, probInput_parity n h, probInput_firstHalf n h⟩

theorem deutsch_jozsa_probability_correct_witness :
    1 ≤ 2 ∧
    (probInput 2 (deutsch_jozsa_circuit 2 constant_oracle_0) 0 = 1 ∧
      probInput 2 (deutsch_jozsa_circuit 2 constant_oracle_1) 0 = 1 ∧
      probInput 2 (deutsch_jozsa_circuit 2 balanced_oracle_parity) 0 = 0 ∧
      probInput 2 (deutsch_jozsa_circuit 2 balanced_oracle_first_half) 0 = 0) :=
  ⟨by decide, deutsch_jozsa_probability_correct 2 (by decide)⟩

theorem probInput_firstHalf_p1 :
    probInput 1 (deutsch_jozsa_circuit 1 balanced_oracle_first_half) 1 = 1 := by
  rw [probInput_agree 1 _ _ (dj_firstHalf_agree 1 (le_refl 1)) 1 (by norm_num),
    probInput_ofReal]
  have hv1 : prodStateR (gFirstHalf 1) (1 + 1) 1 = invSqrt2 := by
    simp only [prodStateR]
    rw [Finset.prod_range_succ, Finset.prod_range_one]
    rw [show Nat.testBit 1 0 = true from rfl, show Nat.testBit 1 1 = false from rfl]
    have h01 : ¬ (0 : ℕ) = 1 := by omega
    simp [gFirstHalf, h01, e1, pMinus]
  have hv3 : prodStateR (gFirstHalf 1) (1 + 1) (1 + 2 ^ 1) = -invSqrt2 := by
    simp only [prodStateR]
    rw [show (1 + 2 ^ 1 : ℕ) = 3 from by norm_num]
    rw [Finset.prod_range_succ, Finset.prod_range_one]
    rw [show Nat.testBit 3 0 = true from rfl, show Nat.testBit 3 1 = true from rfl]
    have h01 : ¬ (0 : ℕ) = 1 := by omega
    simp [gFirstHalf, h01, e1, pMinus]
  rw [hv1, hv3]
  refine Q2.ext ?_ ?_ <;> norm_num [invSqrt2]

/-- C5 (amended): for `n = 1` with the balanced-first-half oracle, the exact
analytic output distribution over the single input qubit is concentrated on
pattern 1 — probability 0 on the all-zero pattern and probability 1 on
pattern 1 — not uniform. -/
theorem dj_first_half_n1 :
    probInput 1 (deutsch_jozsa_circuit 1 balanced_oracle_first_half) 0 = 0 ∧
    probInput 1 (deutsch_jozsa_circuit 1 balanced_oracle_first_half) 1 = 1 :=
  ⟨probInput_firstHalf 1 (le_refl 1), probInput_firstHalf_p1⟩

/-- C5, as stated, is false on the code: the probability of the all-zero
pattern for `n = 1` with the balanced-first-half oracle is not 0.5. -/
theorem dj_first_half_n1_not_half :
    probInput 1 (deutsch_jozsa_circuit 1 balanced_oracle_first_half) 0
      ≠ (⟨1/2, 0⟩ : Q2) := by
  rw [probInput_firstHalf 1 (le_refl 1)]
  intro h
  have h2 := congrArg Q2.re h
  simp only [Q2.zero_re] at h2
  norm_num at h2

/-- C6: applying the Hadamard gate twice to the same qubit of any amplitude
vector returns the vector exactly to its original value (so in particular
within any floating-point tolerance). -/
theorem applyH_applyH (t : Nat) (ψ : QState) : applyH t (applyH t ψ) = ψ := by
  funext k
  have hx : k ^^^ 2 ^ t ^^^ 2 ^ t = k := Nat.xor_cancel_right _ _
  have hbx : (k ^^^ 2 ^ t).testBit t = !(k.testBit t) := testBit_xor_two_pow k t
  by_cases hb : k.testBit t
  · simp only [applyH, hb, hbx, hx, Bool.not_true, if_true, if_false, ite_true, ite_false]
    exact smul_invSqrt2_pair_snd _ _
  · simp only [applyH, hb, hbx, hx, Bool.not_false, if_true, if_false, ite_true, ite_false,
      Bool.false_eq_true]
    exact smul_invSqrt2_pair_fst _ _

/-! ### Norm preservation (C4) -/

theorem sum_range_xor (t N : Nat) (ht : t < N) (f : Nat → Q2) :
    ∑ k ∈ Finset.range (2 ^ N), f (k ^^^ 2 ^ t) = ∑ k ∈ Finset.range (2 ^ N), f k := by
  have hpow : 2 ^ t < 2 ^ N := Nat.pow_lt_pow_right (by norm_num) ht
  refine Finset.sum_nbij' (fun k => k ^^^ 2 ^ t) (fun k => k ^^^ 2 ^ t)
    (fun a ha => Finset.mem_range.mpr
      (Nat.xor_lt_two_pow (Finset.mem_range.mp ha) hpow))
    (fun a ha => Finset.mem_range.mpr
      (Nat.xor_lt_two_pow (Finset.mem_range.mp ha) hpow))
    (fun a _ => Nat.xor_cancel_right _ _) (fun a _ => Nat.xor_cancel_right _ _)
    (fun a _ => rfl)

theorem sum_pair_split (t N : Nat) (ht : t < N) (F : Nat → Q2) :
    ∑ k ∈ Finset.range (2 ^ N), F k
      = ∑ k ∈ (Finset.range (2 ^ N)).filter (fun k => k.testBit t = false),
          (F k + F (k ^^^ 2 ^ t)) := by
  have hpow : 2 ^ t < 2 ^ N := Nat.pow_lt_pow_right (by norm_num) ht
  rw [← Finset.sum_filter_add_sum_filter_not (Finset.range (2 ^ N))
    (fun k => k.testBit t = false) F]
  rw [Finset.sum_add_distrib]
  congr 1
  refine Finset.sum_nbij' (fun k => k ^^^ 2 ^ t) (fun k => k ^^^ 2 ^ t)
    ?_ ?_ (fun a _ => Nat.xor_cancel_right _ _) (fun a _ => Nat.xor_cancel_right _ _)
    (fun a _ => by rw [Nat.xor_cancel_right])
  · intro a ha
    obtain ⟨har, hab⟩ := Finset.mem_filter.mp ha
    have hat : a.testBit t = true := by simpa using hab
    refine Finset.mem_filter.mpr
      ⟨Finset.mem_range.mpr (Nat.xor_lt_two_pow (Finset.mem_range.mp har) hpow), ?_⟩
    rw [testBit_xor_two_pow, hat]
    rfl
  · intro a ha
    obtain ⟨har, hab⟩ := Finset.mem_filter.mp ha
    refine Finset.mem_filter.mpr
      ⟨Finset.mem_range.mpr (Nat.xor_lt_two_pow (Finset.mem_range.mp har) hpow), ?_⟩
    rw [testBit_xor_two_pow, hab]
    simp

theorem normSq_H_pair (a b : CQ2) :
    CQ2.normSq (invSqrt2 • (a + b)) + CQ2.normSq (invSqrt2 • (a - b))
      = CQ2.normSq a + CQ2.normSq b := by
  refine Q2.ext ?_ ?_ <;> simp [CQ2.normSq, invSqrt2] <;> ring

theorem normSum_applyX (t N : Nat) (ht : t < N) (ψ : QState) :
    normSum N (applyX t ψ) = normSum N ψ := by
  simp only [normSum, applyX]
  exact sum_range_xor t N ht (fun k => CQ2.normSq (ψ k))

theorem normSum_applyH (t N : Nat) (ht : t < N) (ψ : QState) :
    normSum N (applyH t ψ) = normSum N ψ := by
  rw [normSum, normSum,
    sum_pair_split t N ht (fun k => CQ2.normSq (applyH t ψ k)),
    sum_pair_split t N ht (fun k => CQ2.normSq (ψ k))]
  refine Finset.sum_congr rfl fun k hk => ?_
  have hkb : k.testBit t = false := (Finset.mem_filter.mp hk).2
  have hxb : (k ^^^ 2 ^ t).testBit t = true := by
    rw [testBit_xor_two_pow, hkb]
    rfl
  have hxx : k ^^^ 2 ^ t ^^^ 2 ^ t = k := Nat.xor_cancel_right _ _
  simp only [applyH, hkb, hxb, hxx, ite_true, ite_false, Bool.false_eq_true]
  exact normSq_H_pair _ _

theorem normSum_applyCNOT (c t N : Nat) (_hc : c < N) (ht : t < N) (hct : c ≠ t)
    (ψ : QState) : normSum N (applyCNOT c t ψ) = normSum N ψ := by
  have hpow : 2 ^ t < 2 ^ N := Nat.pow_lt_pow_right (by norm_num) ht
  rw [normSum, normSum,
    ← Finset.sum_filter_add_sum_filter_not (Finset.range (2 ^ N))
      (fun k => k.testBit c = false) (fun k => CQ2.normSq (applyCNOT c t ψ k)),
    ← Finset.sum_filter_add_sum_filter_not (Finset.range (2 ^ N))
      (fun k => k.testBit c = false) (fun k => CQ2.normSq (ψ k))]
  congr 1
  · refine Finset.sum_congr rfl fun k hk => ?_
    have hkb : k.testBit c = false := (Finset.mem_filter.mp hk).2
    simp only [applyCNOT, hkb, ite_false, Bool.false_eq_true]
  · have hbody : ∀ k ∈ (Finset.range (2 ^ N)).filter (fun k => ¬ k.testBit c = false),
        CQ2.normSq (applyCNOT c t ψ k) = CQ2.normSq (ψ (k ^^^ 2 ^ t)) := fun k hk => by
      have hkb : k.testBit c = true := by
        have := (Finset.mem_filter.mp hk).2
        simpa using this
      simp only [applyCNOT, hkb, ite_true]
    rw [Finset.sum_congr rfl hbody]
    refine Finset.sum_nbij' (fun k => k ^^^ 2 ^ t) (fun k => k ^^^ 2 ^ t)
      ?_ ?_ (fun a _ => Nat.xor_cancel_right _ _)
      (fun a _ => Nat.xor_cancel_right _ _)
      (fun a _ => rfl)
    · intro a ha
      obtain ⟨har, hab⟩ := Finset.mem_filter.mp ha
      refine Finset.mem_filter.mpr
        ⟨Finset.mem_range.mpr (Nat.xor_lt_two_pow (Finset.mem_range.mp har) hpow), ?_⟩
      rw [testBit_xor_two_pow_ne a t c hct]
      exact hab
    · intro a ha
      obtain ⟨har, hab⟩ := Finset.mem_filter.mp ha
      refine Finset.mem_filter.mpr
        ⟨Finset.mem_range.mpr (Nat.xor_lt_two_pow (Finset.mem_range.mp har) hpow), ?_⟩
      rw [testBit_xor_two_pow_ne a t c hct]
      exact hab

theorem normSum_applyGate (N : Nat) (g : Gate) (hg : g.unitaryOn N) (ψ : QState) :
    normSum N (applyGate g ψ) = normSum N ψ := by
  cases g with
  | bitFlip t => exact normSum_applyX t N hg ψ
  | hadamard t => exact normSum_applyH t N hg ψ
  | cnot c t => exact normSum_applyCNOT c t N hg.1 hg.2.1 hg.2.2 ψ

theorem normSum_applyGates_eq (N : Nat) :
    ∀ (gs : List Gate) (ψ : QState), (∀ g ∈ gs, g.unitaryOn N) →
      normSum N (applyGates gs ψ) = normSum N ψ := by
  intro gs
  induction gs with
  | nil => intro ψ _; rfl
  | cons g gs ih =>
      intro ψ hg
      have h1 : applyGates (g :: gs) ψ = applyGates gs (applyGate g ψ) := rfl
      rw [h1, ih (applyGate g ψ) (fun g' hg' => hg g' (List.mem_cons_of_mem _ hg')),
        normSum_applyGate N g (hg g (List.mem_cons_self _ _)) ψ]

/-- C4: for every amplitude vector of unit norm and every finite sequence of
valid BitFlip / Hadamard / ControlledNot gate instructions on an `N`-qubit
register, the sum of squared amplitude magnitudes after applying the
sequence is exactly 1 (so in particular within any tolerance of 1.0). -/
theorem normSum_applyGates (gs : List Gate) (N : Nat) (ψ : QState)
    (hg : ∀ g ∈ gs, g.unitaryOn N) (hψ : normSum N ψ = 1) :
    normSum N (applyGates gs ψ) = 1 := by
  rw [normSum_applyGates_eq N gs ψ hg]
  exact hψ

theorem normSum_applyGates_witness :
    (∀ g ∈ [Gate.hadamard 0], Gate.unitaryOn 1 g) ∧
    normSum 1 initState = 1 ∧
    normSum 1 (applyGates [Gate.hadamard 0] initState) = 1 := by
  have h1 : ∀ g ∈ [Gate.hadamard 0], Gate.unitaryOn 1 g := by
    intro g hgm
    rcases List.mem_singleton.mp hgm with rfl
    exact Nat.zero_lt_one
  have h2 : normSum 1 initState = 1 := by
    rw [normSum, show (2 : ℕ) ^ 1 = 1 + 1 from by norm_num,
      Finset.sum_range_succ, Finset.sum_range_one]
    simp only [initState, CQ2.normSq]
    norm_num
  exact ⟨h1, h2, normSum_applyGates [Gate.hadamard 0] 1 initState h1 h2⟩

/-! ### Sampler counting pipeline (C3) -/

theorem sumCounts_bump {α : Type} [DecidableEq α] (k : α) (acc : List (α × Nat)) :
    sumCounts (bump k acc) = sumCounts acc + 1 := by
  induction acc with
  | nil => rfl
  | cons kv rest ih =>
      obtain ⟨k', v⟩ := kv
      by_cases h : k = k'
      · simp only [bump, if_pos h, sumCounts, List.map_cons, List.sum_cons]
        omega
      · simp only [bump, if_neg h, sumCounts, List.map_cons, List.sum_cons]
        simp only [sumCounts] at ih
        omega

theorem sumCounts_countOcc {α : Type} [DecidableEq α] (l : List α) :
    sumCounts (countOcc l) = l.length := by
  suffices h : ∀ acc : List (α × Nat),
      sumCounts (l.foldl (fun acc k => bump k acc) acc) = sumCounts acc + l.length by
    simpa [countOcc, sumCounts] using h []
  induction l with
  | nil => intro acc; simp
  | cons x xs ih =>
      intro acc
      simp only [List.foldl_cons, List.length_cons]
      rw [ih (bump x acc), sumCounts_bump]
      omega

theorem mem_le_sumCounts {α : Type} (c : List (α × Nat)) (kv : α × Nat) (h : kv ∈ c) :
    kv.2 ≤ sumCounts c := by
  induction c with
  | nil => cases h
  | cons a rest ih =>
      rcases List.mem_cons.mp h with rfl | hmem
      · simp only [sumCounts, List.map_cons, List.sum_cons]
        omega
      · have h2 := ih hmem
        simp only [sumCounts, List.map_cons, List.sum_cons] at h2 ⊢
        omega

theorem probs_sum {α : Type} (c : List (α × Nat)) (S : Nat) :
    ((probabilities c S).map Prod.snd).sum = (sumCounts c : ℚ) / S := by
  induction c with
  | nil => simp [probabilities, sumCounts]
  | cons kv rest ih =>
      simp only [probabilities, List.map_cons, List.sum_cons, sumCounts,
        List.map_map] at ih ⊢
      rw [ih]
      push_cast
      ring

/-- C3: for every shot count `S ≥ 1` and any per-wire measurement results,
the empirical distribution built by the counting loop of the source has
occurrence counts summing exactly to `S`, its probability values sum to 1,
and the probability of every key lies in `[0, 1]`. -/
theorem deutsch_jozsa_counts_sum (results : List (List Int)) (shots : Nat)
    (h : 1 ≤ shots) :
    sumCounts (countOcc (bitstrings results shots)) = shots ∧
    ((probabilities (countOcc (bitstrings results shots)) shots).map Prod.snd).sum = 1 ∧
    ∀ p ∈ probabilities (countOcc (bitstrings results shots)) shots,
      0 ≤ p.2 ∧ p.2 ≤ 1 := by
  have hlen : (bitstrings results shots).length = shots := by
    simp [bitstrings]
  have hsum : sumCounts (countOcc (bitstrings results shots)) = shots := by
    rw [sumCounts_countOcc, hlen]
  refine ⟨hsum, ?_, ?_⟩
  · rw [probs_sum, hsum]
    exact div_self (Nat.cast_ne_zero.mpr (by omega))
  · intro p hp
    obtain ⟨kv, hkv, rfl⟩ := List.mem_map.mp hp
    refine ⟨div_nonneg (Nat.cast_nonneg _) (Nat.cast_nonneg _), ?_⟩
    have hle : kv.2 ≤ shots := by
      have := mem_le_sumCounts _ kv hkv
      omega
    rw [div_le_one (by exact_mod_cast Nat.lt_of_lt_of_le Nat.zero_lt_one h)]
    exact_mod_cast hle

theorem deutsch_jozsa_counts_sum_witness :
    1 ≤ 2 ∧
    (sumCounts (countOcc (bitstrings [[1, -1]] 2)) = 2 ∧
      ((probabilities (countOcc (bitstrings [[1, -1]] 2)) 2).map Prod.snd).sum = 1 ∧
      ∀ p ∈ probabilities (countOcc (bitstrings [[1, -1]] 2)) 2,
        0 ≤ p.2 ∧ p.2 ≤ 1) :=
  ⟨by decide, deutsch_jozsa_counts_sum [[1, -1]] 2 (by decide)⟩

/-! ### Classifier (C2) -/

/-- C2: the classifier returns CONSTANT exactly when the probability mass on
the all-zero pattern strictly exceeds the threshold, BALANCED otherwise; a
distribution with no all-zero entry is read as probability 0 and (for any
nonnegative threshold) classified BALANCED.  The classifier is a total
function of its arguments. -/
theorem classify_rule (d d₀ : List (List Bool × ℚ)) (n n₀ : Nat) (τ τ₀ : ℚ)
    (habs : d₀.find? (fun kv => decide (kv.1 = zero_state n₀)) = none)
    (hτ : 0 ≤ τ₀) :
    (classify d n τ = DJResult.CONSTANT ↔ τ < getD d (zero_state n) 0) ∧
    (classify d n τ = DJResult.BALANCED ↔ ¬ τ < getD d (zero_state n) 0) ∧
    getD d₀ (zero_state n₀) 0 = 0 ∧
    classify d₀ n₀ τ₀ = DJResult.BALANCED := by
  have h0 : getD d₀ (zero_state n₀) 0 = 0 := by
    simp [getD, habs]
  refine ⟨?_, ?_, h0, ?_⟩
  · by_cases hp : τ < getD d (zero_state n) 0 <;> simp [classify, hp]
  · by_cases hp : τ < getD d (zero_state n) 0 <;> simp [classify, hp]
  · simp [classify, h0, not_lt.mpr hτ]

theorem classify_rule_witness :
    (([] : List (List Bool × ℚ)).find? (fun kv => decide (kv.1 = zero_state 1)) = none) ∧
    (0 ≤ (9/10 : ℚ)) ∧
    ((classify [([false], 1)] 1 (9/10) = DJResult.CONSTANT ↔
        (9/10 : ℚ) < getD [([false], 1)] (zero_state 1) 0) ∧
      (classify [([false], 1)] 1 (9/10) = DJResult.BALANCED ↔
        ¬ (9/10 : ℚ) < getD [([false], 1)] (zero_state 1) 0) ∧
      getD ([] : List (List Bool × ℚ)) (zero_state 1) 0 = 0 ∧
      classify [] 1 (9/10) = DJResult.BALANCED) :=
  ⟨rfl, by norm_num,
    classify_rule [([false], 1)] [] 1 1 (9/10) (9/10) rfl (by norm_num)⟩

/-! ### Circuit runner validation (C7) -/

/-- C7: an oracle gate sequence containing any instruction with a wire index
outside `[0, n]` makes the circuit runner fail with the fatal
`invalidGateTarget` error; validation happens before the oracle stage
executes, and no amplitude vector is produced. -/
theorem run_circuit_invalid (n : Nat) (gs : List Gate) (g : Gate) (hg : g ∈ gs)
    (hv : Gate.inRange n g = false) :
    run_circuit n gs = Except.error CircuitError.invalidGateTarget := by
  have hall : gs.all (Gate.inRange n) = false :=
    List.all_eq_false.mpr ⟨g, hg, by simp [hv]⟩
  simp [run_circuit, hall]

theorem run_circuit_invalid_witness :
    Gate.bitFlip 5 ∈ [Gate.bitFlip 5] ∧
    Gate.inRange 1 (Gate.bitFlip 5) = false ∧
    run_circuit 1 [Gate.bitFlip 5] = Except.error CircuitError.invalidGateTarget :=
  ⟨List.mem_singleton.mpr rfl, by decide,
    run_circuit_invalid 1 [Gate.bitFlip 5] (Gate.bitFlip 5)
      (List.mem_singleton.mpr rfl) (by decide)⟩

/-! ### Sampler boundary (C8) -/

/-- C8: a shot count of 0 is rejected at the sampler boundary with the
`emptyShotCount` error; no distribution is returned. -/
theorem sample_zero_shots (table : List ℚ) (rng : Nat → ℚ) :
    sample table 0 rng = Except.error SampleError.emptyShotCount := rfl

/-! ### Classical query counts (C9, C10) -/

/-- C9: the classical comparison returns exactly 2 queries for a constant
function and exactly `2^(n-1) + 1` queries for a balanced function, for
every qubit count `n ≥ 1`. -/
theorem classical_algorithm_counts (n : Nat) (h : 1 ≤ n) :
    classical_algorithm "constant" n = 2 ∧
    classical_algorithm "balanced" n = (2 ^ (n - 1) + 1 : ℚ) := by
  constructor
  · simp [classical_algorithm]
  · have hne : ¬("balanced" = "constant") := by decide
    have hcast : ((n : ℤ) - 1) = ((n - 1 : ℕ) : ℤ) := by omega
    simp only [classical_algorithm, if_neg hne, hcast, zpow_natCast]

theorem classical_algorithm_counts_witness :
    1 ≤ 3 ∧
    (classical_algorithm "constant" 3 = 2 ∧
      classical_algorithm "balanced" 3 = (2 ^ (3 - 1) + 1 : ℚ)) :=
  ⟨by decide, classical_algorithm_counts 3 (by decide)⟩

/-- C10: for every function-type string other than `"constant"` — not only
`"balanced"` — the classical comparison silently returns the balanced-case
count; there is no error path. -/
theorem classical_algorithm_default (s : String) (n : Nat) (h : s ≠ "constant") :
    classical_algorithm s n = 2 ^ ((n : ℤ) - 1) + 1 := by
  simp [classical_algorithm, h]

theorem classical_algorithm_default_witness :
    "parity" ≠ "constant" ∧
    classical_algorithm "parity" 3 = 2 ^ ((3 : ℤ) - 1) + 1 :=
  ⟨by decide, classical_algorithm_default "parity" 3 (by decide)⟩
